import Mathlib

/-!
Verification development for the has_it_been_fkd.py breach-checker script.

The script checks a batch of email addresses against a breach-disclosure
service, aggregates per-database hit counts in a shared dictionary
(breach_cache), bounds concurrency with an asyncio.Semaphore (gather_tasks),
retries blocked responses by recursion (check_breaches), and finally prints
the cache sorted by count descending (execute).

Shallow embedding choices:
- A per-address check is driven by the finite stream of responses the remote
  service would return to its successive (identical) requests; the recursive
  retry of check_breaches consumes one response per attempt.
- The Python dict breach_cache is an insertion-ordered association list:
  incrementing an existing key keeps its position, a new key is appended.
  This mirrors CPython dict semantics, on which the tie order of the final
  sorted summary depends.
- The parsed JSON body is a small JSON value type; a body that is not valid
  JSON is modelled as json = none.  Fields of a parsed JSON object are
  distinct (they come from a Python dict), so first-match lookup is faithful.
- Exceptions that the script does not catch (aiohttp errors, json decoding,
  KeyError on missing fields) are the StepResult.fatal / CheckResult.fatal
  outcomes.
-/

namespace HIBP

/-- A parsed JSON value, as produced by response.json(). -/
inductive JsonVal where
  | jnull
  | jstr (s : String)
  | jnum (n : Int)
  | jbool (b : Bool)
  | jarr (elems : List JsonVal)
  | jobj (fields : List (String × JsonVal))

/-- Lookup of a key in a parsed JSON object (Python dict indexing d[key];
fields of a parsed object are distinct, so first match is the match). -/
def jlookup : List (String × JsonVal) → String → Option JsonVal
  | [], _ => none
  | (k, v) :: rest, key => if k = key then some v else jlookup rest key

/-- One HTTP response of the remote service: status code, body text (a char
list), and the result of parsing the body as JSON (none when the body is not
valid JSON, in which case response.json() raises). -/
structure Response where
  status : Nat
  body : List Char
  json : Option JsonVal

/-- The bot-block marker substring tested by check_breaches line 72. -/
def marker : List Char := "Cloudflare to restrict access".toList

/-- Whether needle is a leading segment of hay. -/
def startsWithList : List Char → List Char → Bool
  | [], _ => true
  | _ :: _, [] => false
  | a :: as, b :: bs => a == b && startsWithList as bs

/-- Whether needle occurs contiguously anywhere in hay (the Python
substring test "needle in hay"). -/
def containsList (needle : List Char) : List Char → Bool
  | [] => startsWithList needle []
  | b :: bs => startsWithList needle (b :: bs) || containsList needle bs

/-- The blocked test of line 72: the body contains the Cloudflare marker, or
the status code is 433. -/
abbrev isBlockedResp (r : Response) : Prop :=
  containsList marker r.body = true ∨ r.status = 433

/-- The shared breach_cache (line 13): an insertion-ordered map from database
name to occurrence count. -/
abbrev Cache := List (String × Nat)

/-- Initial value of breach_cache: the empty dict, created once at module
load, before any check runs. -/
def breach_cache : Cache := []

/-- count_breach (lines 33-43): increment the entry in place if the name is
present (the try branch), otherwise append it with count 1 (the KeyError
branch).  Position of an existing key is preserved and a new key goes last,
as in a Python dict. -/
def count_breach : Cache → String → Cache
  | [], name => [(name, 1)]
  | (k, v) :: rest, name =>
      if k = name then (k, v + 1) :: rest else (k, v) :: count_breach rest name

/-- Lookup of a database name in the cache. -/
def cacheLookup : Cache → String → Option Nat
  | [], _ => none
  | (k, v) :: rest, name => if k = name then some v else cacheLookup rest name

/-- Sum of all counts stored in the cache. -/
def cacheSum (c : Cache) : Nat := (c.map Prod.snd).sum

/-- The contract-shaped reading of database["Name"] (line 83): some s when
the entry is an object whose Name field is the string s, the shape of the
spec's response contract.  none only means the entry is outside that shape;
what the interpreter actually does with such an entry (raise, or count a
non-string key) is the business of the faithful model pyName / toKey
below. -/
def getName : JsonVal → Option String
  | .jobj fields =>
      match jlookup fields "Name" with
      | some (.jstr s) => some s
      | _ => none
  | _ => none

/-- The contract-shaped reading of data["Breaches"] (line 81): some dbs when
the body is an object whose Breaches field is the array dbs, the shape of
the spec's response contract.  none only means the body is outside that
shape; the faithful branch semantics of line 81 (KeyError on a missing key,
iteration of non-array iterables) is pyLookupBreaches / pyElems below. -/
def breachesArr : JsonVal → Option (List JsonVal)
  | .jobj fields =>
      match jlookup fields "Breaches" with
      | some (.jarr dbs) => some dbs
      | _ => none
  | _ => none

/-- The counting comprehension of line 83: walk the Breaches entries in
order, record each Name into the cache as it is reached; a missing Name
aborts with the cache mutations made so far kept (the comprehension had
already run count_breach for the earlier entries). -/
def recordNames (c : Cache) : List JsonVal → Cache × Option (List String)
  | [] => (c, some [])
  | db :: rest =>
      match getName db with
      | some n =>
          match recordNames (count_breach c n) rest with
          | (c', some ns) => (c', some (n :: ns))
          | (c', none) => (c', none)
      | none => (c, none)

/-- Outcome of one attempt (one response) inside check_breaches. -/
inductive StepResult where
  | blocked
  | notFound
  | success (names : List String)
  | fatal
deriving DecidableEq

/-- Lines 80-89 of check_breaches restricted to contract-shaped bodies
(a Breaches array of objects with string Name fields, the spec's response
contract): parse the JSON body, read the Breaches array, count every Name.
Responses outside that shape are mapped to fatal here; which of those
shapes the interpreter really raises on — and which it quietly processes —
is settled by the faithful model classifyBodyPy below, and the claims using
this restricted classifier only ever instantiate it inside the contract
shape. -/
def classifyBody (c : Cache) (r : Response) : Cache × StepResult :=
  match r.json with
  | none => (c, .fatal)
  | some j =>
      match breachesArr j with
      | none => (c, .fatal)
      | some dbs =>
          match recordNames c dbs with
          | (c', some ns) => (c', .success ns)
          | (c', none) => (c', .fatal)

/-- One attempt of check_breaches (lines 70-89) on one response.  none in
place of a response models a network failure of the request itself, which
raises before any classification.  The blocked test (line 72) runs first,
then the 404 test (line 76), then the JSON parse. -/
def check_step (c : Cache) : Option Response → Cache × StepResult
  | none => (c, .fatal)
  | some r =>
      if isBlockedResp r then (c, .blocked)
      else if r.status = 404 then (c, .notFound)
      else classifyBody c r

/-- Final outcome of a whole check.  value v is the Python return value:
none is the bare return of the 404 branch (line 78), some (b, dbs, n) is the
tuple of line 89.  fatal is an uncaught exception; exhausted means every
response in the finite oracle was blocked, i.e. the unbounded retry loop
never terminated within the modelled stream. -/
inductive CheckResult where
  | value (v : Option (Bool × List String × Nat))
  | fatal
  | exhausted
deriving DecidableEq

/-- Whether one oracle entry is a blocked response (a network failure is not
blocked: it raises instead of retrying). -/
def stepBlockedP : Option Response → Prop
  | none => False
  | some r => isBlockedResp r

instance stepBlockedPDec : (r : Option Response) → Decidable (stepBlockedP r)
  | none => isFalse (fun h => h)
  | some r => inferInstanceAs (Decidable (isBlockedResp r))

/-- check_breaches (lines 46-89) over the stream of successive responses:
a blocked response recurses on the remainder of the stream (line 74) with
the cache untouched; any other response terminates the check. -/
def check_breaches (c : Cache) : List (Option Response) → Cache × CheckResult
  | [] => (c, .exhausted)
  | r :: rest =>
      match check_step c r with
      | (c', .blocked) => check_breaches c' rest
      | (c', .notFound) => (c', .value none)
      | (c', .success ns) => (c', .value (some (true, ns, ns.length)))
      | (c', .fatal) => (c', .fatal)

/-- Python str.replace on line 55: replace every occurrence of the single
character at-sign with the three characters of percent-four-zero. -/
def encode_at : List Char → List Char
  | [] => []
  | ch :: cs =>
      if ch = '@' then '%' :: '4' :: '0' :: encode_at cs else ch :: encode_at cs

/-- The request URL of line 55. -/
def base_url (email : List Char) : List Char :=
  "https://haveibeenpwned.com/unifiedsearch/".toList ++ encode_at email

/-- The fixed browser-mimicking header dict of lines 56-68. -/
def request_headers : List (String × String) :=
  [("User-Agent",
    "Mozilla/5.0 (Windows NT 10.0; Win64; x64; rv:107.0) Gecko/20100101 Firefox/107.0"),
   ("Accept", "*/*"),
   ("Accept-Language", "en-US,en;q=0.5"),
   ("Referer", "https://haveibeenpwned.com/"),
   ("X-Requested-With", "XMLHttpRequest"),
   ("DNT", "1"),
   ("Connection", "keep-alive"),
   ("Sec-Fetch-Dest", "empty"),
   ("Sec-Fetch-Mode", "cors"),
   ("Sec-Fetch-Site", "same-origin"),
   ("Sec-GPC", "1")]

/-- The trace of (url, headers) requests a check for this email issues while
consuming the given response stream: one request per attempt, stopping at
the first non-blocked entry.  Every attempt rebuilds the same URL from the
same email and passes the same constant header dict (lines 55-70, 74). -/
def check_requests (email : List Char) :
    List (Option Response) → List (List Char × List (String × String))
  | [] => []
  | r :: rest =>
      if stepBlockedP r then (base_url email, request_headers) :: check_requests email rest
      else [(base_url email, request_headers)]

/-- Stable insertion of one counted entry into a count-descending list: the
new entry goes after every entry whose count is at least as large, so
earlier-inserted entries of equal count stay in front. -/
def insItem {α : Type} (x : α × Nat) : List (α × Nat) → List (α × Nat)
  | [] => [x]
  | y :: ys => if x.2 ≤ y.2 then y :: insItem x ys else x :: y :: ys

/-- Line 129: sorted(breach_cache.items(), key=count, reverse=True).
Python sorted is stable also with reverse=True, so equal counts keep the
order they have in the cache; the fold inserts the items left to right. -/
def sorted_cache (c : Cache) : List (String × Nat) :=
  c.foldl (fun acc x => insItem x acc) []

/-- The per-address outcome record of the spec (section 3, data model). -/
structure BreachCheckResult where
  breached : Bool
  databases : List String
  count : Nat
deriving DecidableEq

/-- Modelled from the spec: the spec's reading of the Python return value of
check_breaches as a BreachCheckResult.  The bare return of the 404 branch
(value None) is the spec's distinct no-breach success, breached false with
no databases; the tuple of line 89 carries its fields across. -/
def specResultView : Option (Bool × List String × Nat) → BreachCheckResult
  | none => ⟨false, [], 0⟩
  | some (b, dbs, n) => ⟨b, dbs, n⟩

/-! ### The bounded-concurrency scheduler (gather_tasks, lines 16-30)

gather_tasks wraps every check coroutine in sem_task, which acquires one of
max_workers semaphore permits, awaits the whole check (its blocked retries
included, since the retry is a recursive await inside the same coroutine),
and releases the permit when the check returns or raises.  The state of one
wrapped task is therefore: pending (created, awaiting a permit), running
(permit held, some responses of its stream still to consume), or done
(permit released, terminal result recorded). -/

inductive TStatus where
  | pending (rs : List (Option Response))
  | running (rs : List (Option Response))
  | done (res : CheckResult)

def isRunningT : TStatus → Bool
  | .running _ => true
  | _ => false

def isDoneT : TStatus → Bool
  | .done _ => true
  | _ => false

/-- Number of tasks currently holding a permit (inside the acquired region
of the semaphore). -/
def runningCount (ts : List TStatus) : Nat := ts.countP isRunningT

/-- Scheduler state: the shared cache and the status of every task. -/
abbrev SchedState := Cache × List TStatus

/-- The terminal CheckResult a non-blocked attempt produces (the blocked
branch never terminates a check, so it is mapped to the unreachable
exhausted marker). -/
def terminalOf : StepResult → CheckResult
  | .notFound => .value none
  | .success ns => .value (some (true, ns, ns.length))
  | .fatal => .fatal
  | .blocked => .exhausted

/-- One scheduler transition of the cooperative event loop.
start: a pending task may enter the acquired region only while fewer than W
permits are held (Semaphore(max_workers).acquire succeeds).
retry: a running task consumes a blocked response and stays running — the
permit is not released across the recursive retry of line 74.
finish: a running task consumes a non-blocked response, terminates with its
classification, updates the shared cache, and releases its permit. -/
inductive SchedStep (W : Nat) : SchedState → SchedState → Prop
  | start (c : Cache) (ts : List TStatus) (i : Nat) (rs : List (Option Response))
      (hi : ts.get? i = some (.pending rs))
      (hW : runningCount ts < W) :
      SchedStep W (c, ts) (c, ts.set i (.running rs))
  | retry (c : Cache) (ts : List TStatus) (i : Nat) (r : Option Response)
      (rs : List (Option Response))
      (hi : ts.get? i = some (.running (r :: rs)))
      (hb : stepBlockedP r) :
      SchedStep W (c, ts) (c, ts.set i (.running rs))
  | finish (c : Cache) (ts : List TStatus) (i : Nat) (r : Option Response)
      (rs : List (Option Response)) (c' : Cache) (res : StepResult)
      (hi : ts.get? i = some (.running (r :: rs)))
      (hb : ¬ stepBlockedP r)
      (hs : check_step c r = (c', res)) :
      SchedStep W (c, ts) (c', ts.set i (.done (terminalOf res)))

/-- The initial scheduler state: empty cache, every submitted check pending
(gather_tasks creates all sem_task wrappers at once; concurrency is mediated
purely by permit scarcity). -/
def initSched (rss : List (List (Option Response))) : SchedState :=
  (breach_cache, rss.map TStatus.pending)

/-- States a run with ceiling W over the submitted streams can reach. -/
def SchedReachable (W : Nat) (rss : List (List (Option Response)))
    (s : SchedState) : Prop :=
  Relation.ReflTransGen (SchedStep W) (initSched rss) s

/-- A permit is released only when its check terminates: no transition takes
a task out of the running status except to done. -/
def ReleaseOnlyAtDone (W : Nat) : Prop :=
  ∀ p q : SchedState, SchedStep W p q →
    ∀ (i : Nat) (t t' : TStatus), p.2.get? i = some t → q.2.get? i = some t' →
      isRunningT t = true → isRunningT t' = false → isDoneT t' = true

/-- A check begins only after acquiring a permit: a task moves from pending
to running only while fewer than W permits are held. -/
def AcquireGated (W : Nat) : Prop :=
  ∀ p q : SchedState, SchedStep W p q →
    ∀ (i : Nat) (rs rs' : List (Option Response)),
      p.2.get? i = some (.pending rs) → q.2.get? i = some (.running rs') →
      runningCount p.2 < W

/-- A well-formed breach entry of the service response: an object with a
Name field holding a string. -/
def mkEntry (n : String) : JsonVal := .jobj [("Name", .jstr n)]

/-- A well-formed service response body: an object whose Breaches field is
the array of breach entries with the given names, in service order. -/
def mkBreachBody (ns : List String) : JsonVal :=
  .jobj [("Breaches", .jarr (ns.map mkEntry))]

/-- RFC 3986 unreserved characters, the ones percent-encoding leaves
verbatim. -/
def unreservedChar (ch : Char) : Bool :=
  ch.isAlpha || ch.isDigit || ch == '-' || ch == '.' || ch == '_' || ch == '~'

/-- Upper-case hexadecimal digit of a value below 16. -/
def hexDigitChar (n : Nat) : Char :=
  if n < 10 then Char.ofNat (48 + n) else Char.ofNat (55 + n)

/-- Modelled from the spec: percent-encoding of one ASCII character, the
encoding the spec's external-interface section means by percent-encoded
address.  Unreserved characters stay, anything else becomes a percent
escape of its code point (the address pattern only produces ASCII). -/
def percentEncodeChar (ch : Char) : List Char :=
  if unreservedChar ch then [ch]
  else '%' :: hexDigitChar (ch.toNat / 16 % 16) :: hexDigitChar (ch.toNat % 16) :: []

/-- Modelled from the spec: percent-encoding of a whole ASCII string. -/
def percentEncode : List Char → List Char
  | [] => []
  | ch :: cs => percentEncodeChar ch ++ percentEncode cs

/-- Character class of the local part and domain of the input extraction
pattern of line 112. -/
def localChar (ch : Char) : Bool :=
  ch.isAlpha || ch.isDigit || ch == '.' || ch == '_' || ch == '-'

/-- Character class of the TLD of the input extraction pattern. -/
def tldChar (ch : Char) : Bool :=
  ch.isAlpha || ch.isDigit || ch == '_' || ch == '-'

/-- The email-shaped extraction pattern of line 112: local part, at-sign,
domain, dot, TLD, with the character classes of the regex. -/
def emailPattern (s : List Char) : Prop :=
  ∃ lp dom tld : List Char,
    s = lp ++ '@' :: (dom ++ '.' :: tld)
    ∧ lp ≠ [] ∧ dom ≠ [] ∧ tld ≠ []
    ∧ (∀ ch ∈ lp, localChar ch = true)
    ∧ (∀ ch ∈ dom, localChar ch = true)
    ∧ (∀ ch ∈ tld, tldChar ch = true)

/-! ### The faithful interpreter-level model of lines 80-89

The restricted classifier above maps every body outside the spec's response
contract to fatal.  The interpreter is not that strict: data["Breaches"]
raises only when the body is not an object or lacks the key; the value is
then iterated, which succeeds for any list, string or dict (characters and
keys for the latter two); each element is indexed with "Name", which raises
unless the element is a dict holding the key; and the resulting value — of
any type — is used as a dict key by count_breach, which raises only when it
is unhashable (a list or dict).  In particular an empty non-array iterable
Breaches value, such as "" or an empty object, makes the check return
(True, [], 0), and an entry with a numeric, boolean or null Name is counted
under that key.  The definitions below embed exactly this. -/

/-- data["Breaches"] (line 81), faithful: the lookup raises (none) only when
the body is not an object (TypeError) or has no Breaches key (KeyError);
otherwise it produces the value, of whatever shape. -/
def pyLookupBreaches : JsonVal → Option JsonVal
  | .jobj fields => jlookup fields "Breaches"
  | _ => none

/-- Python iteration of a decoded-JSON value (for database in ..., line 83):
a list yields its elements, a string its characters (as one-character
strings), a dict its keys; null, numbers and booleans are not iterable and
raise TypeError (none). -/
def pyElems : JsonVal → Option (List JsonVal)
  | .jarr elems => some elems
  | .jstr s => some (s.toList.map (fun ch => JsonVal.jstr ch.toString))
  | .jobj fields => some (fields.map (fun kv => JsonVal.jstr kv.1))
  | _ => none

/-- database["Name"] (line 83), faithful: raises (none) unless the entry is
an object holding the key; the value itself may be of any type. -/
def pyName : JsonVal → Option JsonVal
  | .jobj fields => jlookup fields "Name"
  | _ => none

/-- A Python dict key obtained from a decoded-JSON scalar.  Python unifies
True with 1 and False with 0 as dict keys, so booleans map onto their
integer keys. -/
inductive PyKey where
  | pstr (s : String)
  | pnum (n : Int)
  | pnone
deriving DecidableEq

/-- The dict key a decoded-JSON value hashes to; none for a list or dict,
which are unhashable and make breach_cache[name] raise TypeError. -/
def toKey : JsonVal → Option PyKey
  | .jstr s => some (.pstr s)
  | .jnum n => some (.pnum n)
  | .jbool b => some (.pnum (if b then 1 else 0))
  | .jnull => some .pnone
  | .jarr _ => none
  | .jobj _ => none

/-- The shared breach_cache with its true key space: any hashable decoded
value can be a key once a response carries a non-string Name. -/
abbrev PyCache := List (PyKey × Nat)

/-- The faithful-keyed view of the module-level empty dict of line 13. -/
def breach_cache_py : PyCache := []

/-- count_breach (lines 33-43) on the true key space: same try/except
increment, same dict ordering as count_breach. -/
def py_count_breach : PyCache → PyKey → PyCache
  | [], name => [(name, 1)]
  | (k, v) :: rest, name =>
      if k = name then (k, v + 1) :: rest else (k, v) :: py_count_breach rest name

/-- The counting comprehension of line 83, faithful: for each iterated
element take its Name value (raise if absent), hash it into the cache
(raise if unhashable), and collect the values for the returned list of
line 89; a raise keeps the mutations already made for earlier entries. -/
def recordEntries (c : PyCache) : List JsonVal → PyCache × Option (List JsonVal)
  | [] => (c, some [])
  | db :: rest =>
      match pyName db with
      | none => (c, none)
      | some v =>
          match toKey v with
          | none => (c, none)
          | some k =>
              match recordEntries (py_count_breach c k) rest with
              | (c', some vs) => (c', some (v :: vs))
              | (c', none) => (c', none)

/-- Outcome of one attempt under the faithful model; success carries the
Name values (of any type) in response order. -/
inductive StepResultPy where
  | blocked
  | notFound
  | success (names : List JsonVal)
  | fatal

/-- Lines 80-89, faithful: parse the body, look up Breaches, iterate the
value, record each entry.  fatal appears exactly where the interpreter
raises. -/
def classifyBodyPy (c : PyCache) (r : Response) : PyCache × StepResultPy :=
  match r.json with
  | none => (c, .fatal)
  | some j =>
      match pyLookupBreaches j with
      | none => (c, .fatal)
      | some v =>
          match pyElems v with
          | none => (c, .fatal)
          | some entries =>
              match recordEntries c entries with
              | (c', some ns) => (c', .success ns)
              | (c', none) => (c', .fatal)

/-- One attempt of check_breaches under the faithful model; the blocked and
404 tests are those of lines 72 and 76, as in check_step. -/
def check_step_py (c : PyCache) : Option Response → PyCache × StepResultPy
  | none => (c, .fatal)
  | some r =>
      if isBlockedResp r then (c, .blocked)
      else if r.status = 404 then (c, .notFound)
      else classifyBodyPy c r

/-- Final outcome of a whole check under the faithful model; value v is the
Python return value with Name values of any type. -/
inductive CheckResultPy where
  | value (v : Option (Bool × List JsonVal × Nat))
  | fatal
  | exhausted

/-- check_breaches over the response stream, faithful variant. -/
def check_breaches_py (c : PyCache) : List (Option Response) → PyCache × CheckResultPy
  | [] => (c, .exhausted)
  | r :: rest =>
      match check_step_py c r with
      | (c', .blocked) => check_breaches_py c' rest
      | (c', .notFound) => (c', .value none)
      | (c', .success ns) => (c', .value (some (true, ns, ns.length)))
      | (c', .fatal) => (c', .fatal)

/-- Whether a finished check raised (its exception would propagate out of
asyncio.gather and abort execute before the summary is printed). -/
def isFatalRPy : CheckResultPy → Bool
  | .fatal => true
  | _ => false

/-- The batch of line 126, linearised: run the checks one after the other,
threading the shared cache through, and record whether any check raised. -/
def run_all_py (c : PyCache) : List (List (Option Response)) → PyCache × Bool
  | [] => (c, false)
  | rs :: rest =>
      match check_breaches_py c rs with
      | (c1, res) =>
          match run_all_py c1 rest with
          | (c2, f) => (c2, f || isFatalRPy res)

/-- Line 129 on the true key space: the count-descending stable sort of the
cache items. -/
def sorted_cache_py (c : PyCache) : List (PyKey × Nat) :=
  c.foldl (fun acc x => insItem x acc) []

/-- execute (lines 119-131) on the modelled response streams of the batch:
if any check raised, the exception aborts execute at the await of line 126
and no summary is produced; otherwise the sorted cache is the summary. -/
def execute_py (streams : List (List (Option Response))) :
    Option (List (PyKey × Nat)) :=
  match run_all_py breach_cache_py streams with
  | (_, true) => none
  | (c, false) => some (sorted_cache_py c)

/-! ### Aggregator lemmas -/

theorem cacheLookup_count_breach_self (c : Cache) (n : String) :
    cacheLookup (count_breach c n) n = some ((cacheLookup c n).getD 0 + 1) := by
  induction c with
  | nil => simp [count_breach, cacheLookup]
  | cons kv rest ih =>
    obtain ⟨k, v⟩ := kv
    by_cases h : k = n
    · subst h; simp [count_breach, cacheLookup]
    · simp [count_breach, cacheLookup, h, ih]

theorem cacheLookup_count_breach_other (c : Cache) (n m : String) (h : m ≠ n) :
    cacheLookup (count_breach c n) m = cacheLookup c m := by
  induction c with
  | nil => simp [count_breach, cacheLookup, Ne.symm h]
  | cons kv rest ih =>
    obtain ⟨k, v⟩ := kv
    by_cases hk : k = n
    · subst hk
      have hkm : k ≠ m := fun hh => h (hh.symm)
      simp [count_breach, cacheLookup, hkm]
    · by_cases hm : k = m
      · subst hm; simp [count_breach, cacheLookup, hk]
      · simp [count_breach, cacheLookup, hk, hm, ih]

theorem cacheSum_count_breach (c : Cache) (n : String) :
    cacheSum (count_breach c n) = cacheSum c + 1 := by
  induction c with
  | nil => simp [count_breach, cacheSum]
  | cons kv rest ih =>
    obtain ⟨k, v⟩ := kv
    by_cases h : k = n
    · subst h; simp [count_breach, cacheSum]; omega
    · simp [count_breach, cacheSum, h] at ih ⊢; omega

theorem cacheSum_foldl (ns : List String) : ∀ c : Cache,
    cacheSum (ns.foldl count_breach c) = cacheSum c + ns.length := by
  induction ns with
  | nil => intro c; simp
  | cons n rest ih =>
    intro c
    rw [List.foldl_cons, ih (count_breach c n), cacheSum_count_breach]
    simp; omega

theorem count_breach_pos (c : Cache) (n : String) (h : ∀ p ∈ c, 1 ≤ p.2) :
    ∀ p ∈ count_breach c n, 1 ≤ p.2 := by
  induction c with
  | nil =>
    intro p hp
    simp [count_breach] at hp
    simp [hp]
  | cons kv rest ih =>
    obtain ⟨k, v⟩ := kv
    intro p hp
    by_cases hk : k = n
    · subst hk
      simp [count_breach] at hp
      rcases hp with rfl | hp
      · simp
      · exact h p (by simp [hp])
    · simp [count_breach, hk] at hp
      rcases hp with rfl | hp
      · exact h (k, v) (by simp)
      · exact ih (fun q hq => h q (by simp [hq])) p hp

theorem foldl_count_breach_pos (ns : List String) : ∀ c : Cache,
    (∀ p ∈ c, 1 ≤ p.2) → ∀ p ∈ ns.foldl count_breach c, 1 ≤ p.2 := by
  induction ns with
  | nil => intro c h; simpa using h
  | cons n rest ih =>
    intro c h
    rw [List.foldl_cons]
    exact ih (count_breach c n) (count_breach_pos c n h)

theorem cacheLookup_count_breach_mono (c : Cache) (n m : String) :
    (cacheLookup c m).getD 0 ≤ (cacheLookup (count_breach c n) m).getD 0 := by
  by_cases h : m = n
  · subst h
    rw [cacheLookup_count_breach_self]
    simp
  · rw [cacheLookup_count_breach_other c n m h]

theorem count_breach_keys (c : Cache) (n : String) :
    (count_breach c n).map Prod.fst =
      (if (cacheLookup c n).isSome then c.map Prod.fst
       else c.map Prod.fst ++ [n]) := by
  induction c with
  | nil => simp [count_breach, cacheLookup]
  | cons kv rest ih =>
    obtain ⟨k, v⟩ := kv
    by_cases h : k = n
    · subst h; simp [count_breach, cacheLookup]
    · simp only [count_breach, cacheLookup, if_neg h, List.map_cons]
      rw [ih]
      by_cases h2 : (cacheLookup rest n).isSome <;> simp [h2]

/-! ### Checker step lemmas -/

theorem recordNames_success : ∀ (dbs : List JsonVal) (c c' : Cache) (ns : List String),
    recordNames c dbs = (c', some ns) → c' = ns.foldl count_breach c := by
  intro dbs
  induction dbs with
  | nil =>
    intro c c' ns h
    simp [recordNames] at h
    obtain ⟨rfl, rfl⟩ := h
    simp
  | cons db rest ih =>
    intro c c' ns h
    simp only [recordNames] at h
    cases hg : getName db with
    | none => rw [hg] at h; simp at h
    | some n =>
      rw [hg] at h
      dsimp only at h
      rcases hr : recordNames (count_breach c n) rest with ⟨c2, o⟩
      rw [hr] at h
      cases o with
      | none => simp at h
      | some ms =>
        simp at h
        obtain ⟨h1, h2⟩ := h
        subst h1
        rw [← h2, List.foldl_cons]
        exact ih (count_breach c n) c2 ms hr

theorem recordNames_length : ∀ (dbs : List JsonVal) (c c' : Cache) (ns : List String),
    recordNames c dbs = (c', some ns) → ns.length = dbs.length := by
  intro dbs
  induction dbs with
  | nil =>
    intro c c' ns h
    simp [recordNames] at h
    simp [h.2.symm]
  | cons db rest ih =>
    intro c c' ns h
    simp only [recordNames] at h
    cases hg : getName db with
    | none => rw [hg] at h; simp at h
    | some n =>
      rw [hg] at h
      dsimp only at h
      rcases hr : recordNames (count_breach c n) rest with ⟨c2, o⟩
      rw [hr] at h
      cases o with
      | none => simp at h
      | some ms =>
        simp at h
        rw [← h.2]
        simp [ih (count_breach c n) c2 ms hr]

theorem recordNames_missing_name : ∀ (dbs : List JsonVal) (c : Cache),
    (∃ db ∈ dbs, getName db = none) → (recordNames c dbs).2 = none := by
  intro dbs
  induction dbs with
  | nil => intro c h; simp at h
  | cons d rest ih =>
    intro c h
    rcases h with ⟨db, hmem, hnone⟩
    simp only [recordNames]
    cases hg : getName d with
    | none => rfl
    | some n =>
      have hdb : db ∈ rest := by
        rcases List.mem_cons.mp hmem with rfl | h2
        · rw [hg] at hnone; exact absurd hnone (by simp)
        · exact h2
      have hres := ih (count_breach c n) ⟨db, hdb, hnone⟩
      dsimp only
      rcases hr : recordNames (count_breach c n) rest with ⟨c2, o⟩
      rw [hr] at hres
      simp at hres
      subst hres
      rfl

theorem recordNames_mkEntry (ns : List String) : ∀ c : Cache,
    recordNames c (ns.map mkEntry) = (ns.foldl count_breach c, some ns) := by
  induction ns with
  | nil => intro c; simp [recordNames]
  | cons n rest ih =>
    intro c
    simp only [List.map_cons, recordNames]
    have hg : getName (mkEntry n) = some n := by simp [getName, mkEntry, jlookup]
    rw [hg]
    dsimp only
    rw [ih (count_breach c n)]
    simp [List.foldl_cons]

theorem check_step_blocked (c : Cache) (r : Response) (hb : isBlockedResp r) :
    check_step c (some r) = (c, .blocked) := by
  simp only [check_step]
  rw [if_pos hb]

theorem check_step_notFound (c : Cache) (r : Response) (hb : ¬ isBlockedResp r)
    (h404 : r.status = 404) :
    check_step c (some r) = (c, .notFound) := by
  simp only [check_step]
  rw [if_neg hb, if_pos h404]

theorem classifyBody_ne_blocked (c : Cache) (r : Response) :
    (classifyBody c r).2 ≠ .blocked := by
  unfold classifyBody
  split
  · simp
  · split
    · simp
    · split
      · simp
      · simp

theorem check_step_blocked_iff (c : Cache) (r : Option Response) :
    (check_step c r).2 = .blocked ↔ stepBlockedP r := by
  cases r with
  | none => simp [check_step, stepBlockedP]
  | some resp =>
    show (check_step c (some resp)).2 = .blocked ↔ isBlockedResp resp
    simp only [check_step]
    by_cases hb : isBlockedResp resp
    · simp [hb]
    · rw [if_neg hb]
      by_cases h4 : resp.status = 404
      · simp [h4, hb]
      · rw [if_neg h4]
        simp [classifyBody_ne_blocked c resp, hb]

/-! ### Whole-check lemmas (the retry loop) -/

theorem check_breaches_blocked_cons (c : Cache) (r : Option Response)
    (l : List (Option Response)) (hb : stepBlockedP r) :
    check_breaches c (r :: l) = check_breaches c l := by
  have hs : check_step c r = (c, .blocked) := by
    cases r with
    | none => exact absurd hb (by simp [stepBlockedP])
    | some resp => exact check_step_blocked c resp hb
  simp [check_breaches, hs]

theorem check_breaches_append_blocked (c : Cache) (pre l : List (Option Response))
    (hpre : ∀ x ∈ pre, stepBlockedP x) :
    check_breaches c (pre ++ l) = check_breaches c l := by
  induction pre with
  | nil => simp
  | cons x xs ih =>
    rw [List.cons_append, check_breaches_blocked_cons c x _ (hpre x (by simp))]
    exact ih (fun y hy => hpre y (by simp [hy]))

theorem check_breaches_cons_nonblocked (c : Cache) (r : Option Response)
    (l : List (Option Response)) (hb : ¬ stepBlockedP r) :
    check_breaches c (r :: l)
      = ((check_step c r).1, terminalOf (check_step c r).2) := by
  rcases hs : check_step c r with ⟨c', res⟩
  have hres : res ≠ .blocked := by
    intro hh
    apply hb
    apply (check_step_blocked_iff c r).mp
    rw [hs, hh]
  cases res with
  | blocked => exact absurd rfl hres
  | notFound => simp [check_breaches, hs, terminalOf]
  | success ns => simp [check_breaches, hs, terminalOf]
  | fatal => simp [check_breaches, hs, terminalOf]

theorem check_step_success_recordNames (cc : Cache) (resp : Response) (j : JsonVal)
    (dbs : List JsonVal) (c' : Cache) (ns : List String)
    (hj : resp.json = some j) (hdb : breachesArr j = some dbs)
    (hs : check_step cc (some resp) = (c', .success ns)) :
    recordNames cc dbs = (c', some ns) := by
  simp only [check_step] at hs
  split at hs
  · simp at hs
  · split at hs
    · simp at hs
    · simp only [classifyBody] at hs
      rw [hj] at hs
      dsimp only at hs
      rw [hdb] at hs
      dsimp only at hs
      rcases hr : recordNames cc dbs with ⟨c2, o⟩
      rw [hr] at hs
      cases o with
      | some ms =>
        simp at hs
        rw [hs.1, hs.2]
      | none => simp at hs

theorem check_requests_replicate (email : List Char) (pre rest : List (Option Response))
    (r : Option Response) (hpre : ∀ x ∈ pre, stepBlockedP x) (hr : ¬ stepBlockedP r) :
    check_requests email (pre ++ r :: rest)
      = List.replicate (pre.length + 1) (base_url email, request_headers) := by
  induction pre with
  | nil => simp [check_requests, hr]
  | cons x xs ih =>
    rw [List.cons_append]
    simp only [check_requests, if_pos (hpre x (by simp))]
    rw [ih (fun y hy => hpre y (by simp [hy]))]
    simp [List.replicate_succ]

/-! ### Lemmas about the faithful model -/

theorem recordEntries_missing_name : ∀ (entries : List JsonVal) (c : PyCache),
    (∃ db ∈ entries, pyName db = none) → (recordEntries c entries).2 = none := by
  intro entries
  induction entries with
  | nil => intro c h; simp at h
  | cons d rest ih =>
    intro c h
    rcases h with ⟨db, hmem, hnone⟩
    simp only [recordEntries]
    cases hg : pyName d with
    | none => rfl
    | some v =>
      have hdb : db ∈ rest := by
        rcases List.mem_cons.mp hmem with rfl | h2
        · rw [hg] at hnone; exact absurd hnone (by simp)
        · exact h2
      dsimp only
      cases hk : toKey v with
      | none => rfl
      | some k =>
        have hres := ih (py_count_breach c k) ⟨db, hdb, hnone⟩
        dsimp only
        rcases hr : recordEntries (py_count_breach c k) rest with ⟨c2, o⟩
        rw [hr] at hres
        simp at hres
        subst hres
        rfl

theorem recordEntries_snd_indep : ∀ (entries : List JsonVal) (c c' : PyCache),
    (recordEntries c entries).2 = (recordEntries c' entries).2 := by
  intro entries
  induction entries with
  | nil => intro c c'; rfl
  | cons d rest ih =>
    intro c c'
    simp only [recordEntries]
    cases hg : pyName d with
    | none => rfl
    | some v =>
      dsimp only
      cases hk : toKey v with
      | none => rfl
      | some k =>
        dsimp only
        rcases h1 : recordEntries (py_count_breach c k) rest with ⟨a2, ao⟩
        rcases h2 : recordEntries (py_count_breach c' k) rest with ⟨b2, bo⟩
        have hab : ao = bo := by
          have := ih (py_count_breach c k) (py_count_breach c' k)
          rw [h1, h2] at this
          exact this
        subst hab
        cases ao <;> rfl

theorem check_step_py_snd_indep (r : Option Response) (c c' : PyCache) :
    (check_step_py c r).2 = (check_step_py c' r).2 := by
  cases r with
  | none => rfl
  | some resp =>
    simp only [check_step_py]
    by_cases hb : isBlockedResp resp
    · rw [if_pos hb, if_pos hb]
    · rw [if_neg hb, if_neg hb]
      by_cases h4 : resp.status = 404
      · rw [if_pos h4, if_pos h4]
      · rw [if_neg h4, if_neg h4]
        simp only [classifyBodyPy]
        cases resp.json with
        | none => rfl
        | some j =>
          dsimp only
          cases hbr : pyLookupBreaches j with
          | none => rfl
          | some v =>
            dsimp only
            cases he : pyElems v with
            | none => rfl
            | some entries =>
              dsimp only
              rcases h1 : recordEntries c entries with ⟨a2, ao⟩
              rcases h2 : recordEntries c' entries with ⟨b2, bo⟩
              have hab : ao = bo := by
                have := recordEntries_snd_indep entries c c'
                rw [h1, h2] at this
                exact this
              subst hab
              cases ao <;> rfl

theorem check_breaches_py_snd_indep : ∀ (rs : List (Option Response)) (c c' : PyCache),
    (check_breaches_py c rs).2 = (check_breaches_py c' rs).2 := by
  intro rs
  induction rs with
  | nil => intro c c'; rfl
  | cons r rest ih =>
    intro c c'
    simp only [check_breaches_py]
    rcases h1 : check_step_py c r with ⟨a, ra⟩
    rcases h2 : check_step_py c' r with ⟨b, rb⟩
    have hab : ra = rb := by
      have := check_step_py_snd_indep r c c'
      rw [h1, h2] at this
      exact this
    subst hab
    cases ra with
    | blocked => exact ih a b
    | notFound => rfl
    | success ns => rfl
    | fatal => rfl

/-! ### Orchestrator lemmas -/

theorem run_all_py_fatal : ∀ (streams : List (List (Option Response))) (c : PyCache)
    (rs : List (Option Response)), rs ∈ streams →
    (check_breaches_py breach_cache_py rs).2 = .fatal →
    (run_all_py c streams).2 = true := by
  intro streams
  induction streams with
  | nil => intro c rs h; simp at h
  | cons s rest ih =>
    intro c rs hmem hf
    simp only [run_all_py]
    rcases h1 : check_breaches_py c s with ⟨c1, res⟩
    rcases h2 : run_all_py c1 rest with ⟨c2, f⟩
    rcases List.mem_cons.mp hmem with rfl | hmem2
    · have hres : res = .fatal := by
        have := check_breaches_py_snd_indep rs c breach_cache_py
        rw [h1, hf] at this
        exact this
      subst hres
      simp [isFatalRPy]
    · have hfl := ih c1 rs hmem2 hf
      rw [h2] at hfl
      simp at hfl
      simp [hfl]

theorem execute_py_fatal (streams : List (List (Option Response)))
    (rs : List (Option Response)) (hmem : rs ∈ streams)
    (hf : (check_breaches_py breach_cache_py rs).2 = .fatal) :
    execute_py streams = none := by
  have hflag := run_all_py_fatal streams breach_cache_py rs hmem hf
  simp only [execute_py]
  rcases h : run_all_py breach_cache_py streams with ⟨c, f⟩
  rw [h] at hflag
  simp at hflag
  subst hflag
  rfl

/-! ### Summary sorting lemmas (Python sorted is stable, also in reverse) -/

theorem insItem_perm (x : String × Nat) (l : List (String × Nat)) :
    List.Perm (insItem x l) (x :: l) := by
  induction l with
  | nil => exact List.Perm.refl _
  | cons y ys ih =>
    by_cases h : x.2 ≤ y.2
    · simp only [insItem, if_pos h]
      exact (ih.cons y).trans (List.Perm.swap x y ys)
    · simp only [insItem, if_neg h]
      exact List.Perm.refl _

theorem insItem_sorted (x : String × Nat) (l : List (String × Nat))
    (hl : List.Sorted (fun a b : String × Nat => b.2 ≤ a.2) l) :
    List.Sorted (fun a b : String × Nat => b.2 ≤ a.2) (insItem x l) := by
  induction l with
  | nil => simp [insItem]
  | cons y ys ih =>
    rw [List.sorted_cons] at hl
    obtain ⟨hy, hys⟩ := hl
    by_cases h : x.2 ≤ y.2
    · simp only [insItem, if_pos h]
      rw [List.sorted_cons]
      refine ⟨?_, ih hys⟩
      intro b hb
      rcases List.mem_cons.mp ((insItem_perm x ys).mem_iff.mp hb) with rfl | hb2
      · exact h
      · exact hy b hb2
    · simp only [insItem, if_neg h]
      rw [List.sorted_cons]
      constructor
      · intro b hb
        rcases List.mem_cons.mp hb with rfl | hb2
        · omega
        · have := hy b hb2
          omega
      · rw [List.sorted_cons]
        exact ⟨hy, hys⟩

theorem insItem_filter (x : String × Nat) (l : List (String × Nat)) (k : Nat)
    (hl : List.Sorted (fun a b : String × Nat => b.2 ≤ a.2) l) :
    (insItem x l).filter (fun p => p.2 == k)
      = l.filter (fun p => p.2 == k) ++ (if x.2 == k then [x] else []) := by
  induction l with
  | nil =>
    cases h : (x.2 == k) <;> simp [insItem, List.filter_cons, h]
  | cons y ys ih =>
    rw [List.sorted_cons] at hl
    obtain ⟨hy, hys⟩ := hl
    by_cases h : x.2 ≤ y.2
    · simp only [insItem, if_pos h, List.filter_cons]
      rw [ih hys]
      cases hyk : (y.2 == k) <;> simp [hyk]
    · cases hxk : (x.2 == k) with
      | true =>
        have hk : x.2 = k := by simpa using hxk
        have hemp : (y :: ys).filter (fun p => p.2 == k) = [] := by
          rw [List.filter_eq_nil_iff]
          intro a ha
          rcases List.mem_cons.mp ha with rfl | ha2
          · simp
            omega
          · have := hy a ha2
            simp
            omega
        simp only [insItem, if_neg h, List.filter_cons, hxk, hemp]
        simp
      | false =>
        simp only [insItem, if_neg h, List.filter_cons, hxk]
        simp

theorem foldl_insItem_props (c : List (String × Nat)) : ∀ acc : List (String × Nat),
    List.Sorted (fun a b : String × Nat => b.2 ≤ a.2) acc →
    List.Sorted (fun a b : String × Nat => b.2 ≤ a.2)
        (c.foldl (fun a x => insItem x a) acc)
    ∧ List.Perm (c.foldl (fun a x => insItem x a) acc) (acc ++ c)
    ∧ ∀ k : Nat, (c.foldl (fun a x => insItem x a) acc).filter (fun p => p.2 == k)
        = acc.filter (fun p => p.2 == k) ++ c.filter (fun p => p.2 == k) := by
  induction c with
  | nil =>
    intro acc hacc
    refine ⟨hacc, by simp, fun k => by simp⟩
  | cons x cs ih =>
    intro acc hacc
    rw [List.foldl_cons]
    obtain ⟨hs, hp, hf⟩ := ih (insItem x acc) (insItem_sorted x acc hacc)
    refine ⟨hs, ?_, ?_⟩
    · refine hp.trans ?_
      refine ((insItem_perm x acc).append_right cs).trans ?_
      rw [List.cons_append]
      exact List.perm_middle.symm
    · intro k
      rw [hf k, insItem_filter x acc k hacc, List.filter_cons]
      cases hxk : (x.2 == k) <;> simp [hxk]

/-! ### Scheduler lemmas -/

theorem get?_set_self {α : Type} : ∀ (l : List α) (i : Nat) (b a : α),
    l.get? i = some a → (l.set i b).get? i = some b := by
  intro l
  induction l with
  | nil => intro i b a h; simp [List.get?] at h
  | cons x xs ih =>
    intro i b a h
    cases i with
    | zero => simp [List.set]
    | succ m =>
      simp only [List.get?] at h
      simp only [List.set, List.get?]
      exact ih m b a h

theorem get?_set_other {α : Type} : ∀ (l : List α) (i j : Nat) (b : α), i ≠ j →
    (l.set i b).get? j = l.get? j := by
  intro l
  induction l with
  | nil => intro i j b h; simp [List.set]
  | cons x xs ih =>
    intro i j b h
    cases i with
    | zero =>
      cases j with
      | zero => exact absurd rfl h
      | succ m => simp [List.set]
    | succ n =>
      cases j with
      | zero => simp [List.set]
      | succ m =>
        simp only [List.set, List.get?]
        exact ih n m b (fun hh => h (by rw [hh]))

theorem countP_set (p : TStatus → Bool) : ∀ (l : List TStatus) (i : Nat) (a b : TStatus),
    l.get? i = some a →
    (l.set i b).countP p + (if p a then 1 else 0)
      = l.countP p + (if p b then 1 else 0) := by
  intro l
  induction l with
  | nil => intro i a b h; simp [List.get?] at h
  | cons x xs ih =>
    intro i a b h
    cases i with
    | zero =>
      simp only [List.get?] at h
      injection h with h
      subst h
      simp only [List.set, List.countP_cons]
      cases hx : p x <;> cases hb : p b <;> simp [hx, hb]
    | succ n =>
      simp only [List.get?] at h
      simp only [List.set, List.countP_cons]
      have := ih n a b h
      cases hx : p x <;> cases ha : p a <;> cases hb : p b <;>
        simp [hx, ha, hb] at this ⊢ <;> omega

theorem runningCount_init : ∀ rss : List (List (Option Response)),
    runningCount (rss.map TStatus.pending) = 0 := by
  intro rss
  induction rss with
  | nil => rfl
  | cons r rest ih =>
    simp only [List.map_cons, runningCount, List.countP_cons] at ih ⊢
    simp [isRunningT, ih]

theorem sched_running_le (W : Nat) (rss : List (List (Option Response)))
    (s : SchedState) (h : SchedReachable W rss s) : runningCount s.2 ≤ W := by
  induction h with
  | refl => simp [initSched, runningCount_init]
  | tail hr step ih =>
    cases step with
    | start c ts i rs hi hW =>
      have hc := countP_set isRunningT ts i _ (.running rs) hi
      simp [isRunningT] at hc
      simp only [runningCount] at ih hW ⊢
      omega
    | retry c ts i r rs hi hb =>
      have hc := countP_set isRunningT ts i _ (.running rs) hi
      simp [isRunningT] at hc
      simp only [runningCount] at ih ⊢
      omega
    | finish c ts i r rs c' res hi hb hs =>
      have hc := countP_set isRunningT ts i _ (.done (terminalOf res)) hi
      simp [isRunningT] at hc
      simp only [runningCount] at ih ⊢
      omega

theorem releaseOnlyAtDone_holds (W : Nat) : ReleaseOnlyAtDone W := by
  intro p q step i t t' hp hq hrun hnrun
  cases step with
  | start c ts j rs hj hW =>
    dsimp only at hp hq
    by_cases hij : j = i
    · subst hij
      rw [hj] at hp
      injection hp with hp
      subst hp
      simp [isRunningT] at hrun
    · rw [get?_set_other ts j i _ hij, hp] at hq
      injection hq with hq
      subst hq
      rw [hrun] at hnrun
      exact absurd hnrun (by simp)
  | retry c ts j r rs hj hb =>
    dsimp only at hp hq
    by_cases hij : j = i
    · subst hij
      rw [get?_set_self ts j (.running rs) _ hj] at hq
      injection hq with hq
      subst hq
      simp [isRunningT] at hnrun
    · rw [get?_set_other ts j i _ hij, hp] at hq
      injection hq with hq
      subst hq
      rw [hrun] at hnrun
      exact absurd hnrun (by simp)
  | finish c ts j r rs c' res hj hb hs =>
    dsimp only at hp hq
    by_cases hij : j = i
    · subst hij
      rw [get?_set_self ts j (.done (terminalOf res)) _ hj] at hq
      injection hq with hq
      subst hq
      simp [isDoneT]
    · rw [get?_set_other ts j i _ hij, hp] at hq
      injection hq with hq
      subst hq
      rw [hrun] at hnrun
      exact absurd hnrun (by simp)

theorem acquireGated_holds (W : Nat) : AcquireGated W := by
  intro p q step i rs rs' hp hq
  cases step with
  | start c ts j rs0 hj hW =>
    dsimp only at hp hq ⊢
    by_cases hij : j = i
    · subst hij
      exact hW
    · rw [get?_set_other ts j i _ hij, hp] at hq
      simp at hq
  | retry c ts j r rs0 hj hb =>
    dsimp only at hp hq ⊢
    by_cases hij : j = i
    · subst hij
      rw [hj] at hp
      simp at hp
    · rw [get?_set_other ts j i _ hij, hp] at hq
      simp at hq
  | finish c ts j r rs0 c' res hj hb hs =>
    dsimp only at hp hq ⊢
    by_cases hij : j = i
    · subst hij
      rw [hj] at hp
      simp at hp
    · rw [get?_set_other ts j i _ hij, hp] at hq
      simp at hq

/-! ### Claim theorems -/

/-- Claim C1: in every run with concurrency ceiling W, no reachable scheduler
state has more than W checks past the permit-acquire point and before permit
release; a permit is held for the entire check, including every blocked
retry (a running task leaves the acquired region only by terminating), and
a check begins only while fewer than W permits are held. -/
theorem semaphore_bounds_concurrency (W : Nat) (rss : List (List (Option Response)))
    (s : SchedState) (h : SchedReachable W rss s) :
    runningCount s.2 ≤ W ∧ ReleaseOnlyAtDone W ∧ AcquireGated W :=
  ⟨sched_running_le W rss s h, releaseOnlyAtDone_holds W, acquireGated_holds W⟩

theorem semaphore_bounds_concurrency_witness :
    runningCount (initSched [[some ⟨404, [], none⟩]]).2 ≤ 1
    ∧ ReleaseOnlyAtDone 1 ∧ AcquireGated 1 :=
  semaphore_bounds_concurrency 1 [[some ⟨404, [], none⟩]] _ Relation.ReflTransGen.refl

/-- Claim C2: a blocked response makes check_breaches re-issue the identical
request (same URL built from the same address, same constant headers) with
no delay and no attempt counter, and the check terminates with the
classification of the first non-blocked response of the stream: value none
when it is the 404 outcome, the breached tuple when it is a success — a
blocked address is never silently dropped (the outcome is never the
exhausted marker once a non-blocked response arrives). -/
theorem blocked_retry_resolves (c : Cache) (pre rest : List (Option Response))
    (r : Option Response) (email : List Char)
    (hpre : ∀ x ∈ pre, stepBlockedP x) (hr : ¬ stepBlockedP r) :
    check_breaches c (pre ++ r :: rest)
        = ((check_step c r).1, terminalOf (check_step c r).2)
    ∧ (check_breaches c (pre ++ r :: rest)).2 ≠ .exhausted
    ∧ check_requests email (pre ++ r :: rest)
        = List.replicate (pre.length + 1) (base_url email, request_headers)
    ∧ ((check_step c r).2 = .notFound →
        (check_breaches c (pre ++ r :: rest)).2 = .value none)
    ∧ (∀ ns, (check_step c r).2 = .success ns →
        (check_breaches c (pre ++ r :: rest)).2
          = .value (some (true, ns, ns.length))) := by
  have heq : check_breaches c (pre ++ r :: rest)
      = ((check_step c r).1, terminalOf (check_step c r).2) := by
    rw [check_breaches_append_blocked c pre _ hpre,
        check_breaches_cons_nonblocked c r rest hr]
  refine ⟨heq, ?_, check_requests_replicate email pre rest r hpre hr, ?_, ?_⟩
  · rw [heq]
    cases hres : (check_step c r).2 with
    | blocked => exact absurd ((check_step_blocked_iff c r).mp hres) hr
    | notFound => simp [terminalOf]
    | success ns => simp [terminalOf]
    | fatal => simp [terminalOf]
  · intro hnf
    rw [heq, hnf]
    rfl
  · intro ns hsuc
    rw [heq, hsuc]
    rfl

theorem blocked_retry_resolves_witness :
    check_breaches [] ([some ⟨433, [], none⟩] ++ some ⟨404, [], none⟩ :: [])
        = ((check_step [] (some ⟨404, [], none⟩)).1,
           terminalOf (check_step [] (some ⟨404, [], none⟩)).2)
    ∧ (check_breaches [] ([some ⟨433, [], none⟩] ++ some ⟨404, [], none⟩ :: [])).2
        ≠ .exhausted
    ∧ check_requests "a@x.com".toList
          ([some ⟨433, [], none⟩] ++ some ⟨404, [], none⟩ :: [])
        = List.replicate ([some (⟨433, [], none⟩ : Response)].length + 1)
            (base_url "a@x.com".toList, request_headers)
    ∧ ((check_step [] (some ⟨404, [], none⟩)).2 = .notFound →
        (check_breaches [] ([some ⟨433, [], none⟩] ++ some ⟨404, [], none⟩ :: [])).2
          = .value none)
    ∧ (∀ ns, (check_step [] (some ⟨404, [], none⟩)).2 = .success ns →
        (check_breaches [] ([some ⟨433, [], none⟩] ++ some ⟨404, [], none⟩ :: [])).2
          = .value (some (true, ns, ns.length))) :=
  blocked_retry_resolves [] [some ⟨433, [], none⟩] [] (some ⟨404, [], none⟩)
    "a@x.com".toList (by decide) (by decide)

/-- Claim C3: a successful check whose Breaches array has N entries performs
exactly N aggregator increments, one per named database, in response order
(the final cache is the left fold of count_breach over the names, and the
cache sum grows by exactly N); and count_breach itself increments the
counter of its name by exactly 1, initialising an absent name to 1, leaving
every other name untouched. -/
theorem count_breach_increments (c cc : Cache) (n m : String) (hnm : m ≠ n)
    (resp : Response) (j : JsonVal) (dbs : List JsonVal) (c' : Cache)
    (ns : List String) (hj : resp.json = some j) (hdb : breachesArr j = some dbs)
    (hs : check_step cc (some resp) = (c', .success ns)) :
    cacheLookup (count_breach c n) n = some ((cacheLookup c n).getD 0 + 1)
    ∧ cacheLookup (count_breach c n) m = cacheLookup c m
    ∧ c' = ns.foldl count_breach cc
    ∧ cacheSum c' = cacheSum cc + ns.length
    ∧ ns.length = dbs.length := by
  have hrec := check_step_success_recordNames cc resp j dbs c' ns hj hdb hs
  have hfold := recordNames_success dbs cc c' ns hrec
  refine ⟨cacheLookup_count_breach_self c n,
          cacheLookup_count_breach_other c n m hnm, hfold, ?_,
          recordNames_length dbs cc c' ns hrec⟩
  rw [hfold, cacheSum_foldl]

theorem count_breach_increments_witness :
    cacheLookup (count_breach [("Adobe", 1)] "Adobe") "Adobe"
        = some ((cacheLookup [("Adobe", 1)] "Adobe").getD 0 + 1)
    ∧ cacheLookup (count_breach [("Adobe", 1)] "Adobe") "LinkedIn"
        = cacheLookup [("Adobe", 1)] "LinkedIn"
    ∧ [("Adobe", 1)] = (["Adobe"] : List String).foldl count_breach []
    ∧ cacheSum [("Adobe", 1)] = cacheSum [] + (["Adobe"] : List String).length
    ∧ (["Adobe"] : List String).length
        = [JsonVal.jobj [("Name", JsonVal.jstr "Adobe")]].length :=
  count_breach_increments [("Adobe", 1)] [] "Adobe" "LinkedIn" (by decide)
    ⟨200, [], some (JsonVal.jobj
      [("Breaches", JsonVal.jarr [JsonVal.jobj [("Name", JsonVal.jstr "Adobe")]])])⟩
    (JsonVal.jobj
      [("Breaches", JsonVal.jarr [JsonVal.jobj [("Name", JsonVal.jstr "Adobe")]])])
    [JsonVal.jobj [("Name", JsonVal.jstr "Adobe")]]
    [("Adobe", 1)] ["Adobe"] rfl rfl rfl

/-- Claim C4: a non-blocked 404 response terminates the check successfully
with the bare-return value (whose spec reading is breached false, no
databases, count 0), and the cache is left exactly as it was. -/
theorem notFound_no_mutation (c : Cache) (r : Response) (rest : List (Option Response))
    (hm : containsList marker r.body = false) (h404 : r.status = 404) :
    check_step c (some r) = (c, .notFound)
    ∧ check_breaches c (some r :: rest) = (c, .value none)
    ∧ specResultView none = ⟨false, [], 0⟩ := by
  have hb : ¬ isBlockedResp r := by
    intro hblk
    rcases hblk with hblk | hblk
    · rw [hm] at hblk
      exact absurd hblk (by simp)
    · omega
  have hs := check_step_notFound c r hb h404
  refine ⟨hs, ?_, rfl⟩
  have hnb : ¬ stepBlockedP (some r) := hb
  rw [check_breaches_cons_nonblocked c _ rest hnb, hs]
  rfl

theorem notFound_no_mutation_witness :
    check_step [("X", 2)] (some ⟨404, [], none⟩) = ([("X", 2)], .notFound)
    ∧ check_breaches [("X", 2)] (some ⟨404, [], none⟩ :: []) = ([("X", 2)], .value none)
    ∧ specResultView none = ⟨false, [], 0⟩ :=
  notFound_no_mutation [("X", 2)] ⟨404, [], none⟩ [] (by decide) rfl

/-- Claim C5: the cache starts as the empty dict and is only ever grown in
place: after any prefix of recorded names the sum of its values equals the
number of hits processed so far, every stored value is a positive (hence
non-negative) integer, and no single record call ever decreases any
counter (the cache is never reset mid-run). -/
theorem cache_sum_invariant (ns : List String) (k : Nat) (c : Cache) (n m : String) :
    cacheSum ((ns.take k).foldl count_breach breach_cache) = (ns.take k).length
    ∧ (∀ p ∈ (ns.take k).foldl count_breach breach_cache, 1 ≤ p.2)
    ∧ (cacheLookup c m).getD 0 ≤ (cacheLookup (count_breach c n) m).getD 0 := by
  refine ⟨?_, ?_, cacheLookup_count_breach_mono c n m⟩
  · rw [cacheSum_foldl]
    simp [breach_cache, cacheSum]
  · exact foldl_count_breach_pos (ns.take k) breach_cache (by simp [breach_cache])

/-- Claim C6: a check whose response is neither blocked nor 404 and whose
JSON body is a Breaches array of named entries returns breached true, the
database names in the order the service returned them, and the count equal
to their number. -/
theorem success_names_in_order (c : Cache) (status : Nat) (body : List Char)
    (ns : List String) (rest : List (Option Response))
    (hm : containsList marker body = false) (h433 : status ≠ 433)
    (h404 : status ≠ 404) :
    check_step c (some ⟨status, body, some (mkBreachBody ns)⟩)
        = (ns.foldl count_breach c, .success ns)
    ∧ check_breaches c (some ⟨status, body, some (mkBreachBody ns)⟩ :: rest)
        = (ns.foldl count_breach c, .value (some (true, ns, ns.length))) := by
  have hb : ¬ isBlockedResp (⟨status, body, some (mkBreachBody ns)⟩ : Response) := by
    intro hblk
    rcases hblk with hblk | hblk
    · rw [show (⟨status, body, some (mkBreachBody ns)⟩ : Response).body = body from rfl,
          hm] at hblk
      exact absurd hblk (by simp)
    · exact h433 hblk
  have hs : check_step c (some ⟨status, body, some (mkBreachBody ns)⟩)
      = (ns.foldl count_breach c, .success ns) := by
    simp only [check_step]
    rw [if_neg hb, if_neg h404]
    simp only [classifyBody]
    rw [show breachesArr (mkBreachBody ns) = some (ns.map mkEntry) by
          simp [breachesArr, mkBreachBody, jlookup]]
    dsimp only
    rw [recordNames_mkEntry ns c]
  refine ⟨hs, ?_⟩
  have hnb : ¬ stepBlockedP (some ⟨status, body, some (mkBreachBody ns)⟩) := hb
  rw [check_breaches_cons_nonblocked c _ rest hnb, hs]
  rfl

theorem success_names_in_order_witness :
    check_step [] (some ⟨200, [], some (mkBreachBody ["Adobe", "LinkedIn"])⟩)
        = ((["Adobe", "LinkedIn"] : List String).foldl count_breach [],
           .success ["Adobe", "LinkedIn"])
    ∧ check_breaches []
          (some ⟨200, [], some (mkBreachBody ["Adobe", "LinkedIn"])⟩ :: [])
        = ((["Adobe", "LinkedIn"] : List String).foldl count_breach [],
           .value (some (true, ["Adobe", "LinkedIn"],
                         (["Adobe", "LinkedIn"] : List String).length))) :=
  success_names_in_order [] 200 [] ["Adobe", "LinkedIn"] [] (by decide)
    (by decide) (by decide)

/-- Claim C7: the final summary holds exactly the entries of the breach
cache (it is a permutation of them), sorted by count descending, with
entries of equal count in the order they sit in the cache — which is their
first-recorded order, since count_breach keeps the position of an existing
name and appends a new name at the end. -/
theorem summary_sorted_stable (c : Cache) (n : String) :
    List.Perm (sorted_cache c) c
    ∧ List.Sorted (fun a b : String × Nat => b.2 ≤ a.2) (sorted_cache c)
    ∧ (∀ k : Nat, (sorted_cache c).filter (fun p => p.2 == k)
        = c.filter (fun p => p.2 == k))
    ∧ (count_breach c n).map Prod.fst
        = (if (cacheLookup c n).isSome then c.map Prod.fst
           else c.map Prod.fst ++ [n]) := by
  obtain ⟨hs, hp, hf⟩ := foldl_insItem_props c [] (by simp)
  exact ⟨by simpa [sorted_cache] using hp, by simpa [sorted_cache] using hs,
         fun k => by simpa [sorted_cache] using hf k, count_breach_keys c n⟩

/-- Claim C8, counterexample: the claim asserts that a body without a
Breaches array is unhandled and fatal, but at the body with Breaches equal
to the empty string — which has no Breaches array (the contract-shaped
reading breachesArr is none) — the interpreter iterates the empty string
zero times and line 89 returns (True, [], 0): the check terminates
successfully, no error propagates.  Likewise an entry whose Name is the
number 5 — outside the contract shape getName accepts — is simply counted
under the key 5 and the check succeeds. -/
theorem malformed_fatal_aborts_counterexample :
    check_breaches_py []
        [some ⟨200, [], some (JsonVal.jobj [("Breaches", JsonVal.jstr "")])⟩]
      = ([], .value (some (true, [], 0)))
    ∧ breachesArr (JsonVal.jobj [("Breaches", JsonVal.jstr "")]) = none
    ∧ CheckResultPy.value (some (true, [], 0)) ≠ CheckResultPy.fatal
    ∧ check_breaches_py []
        [some ⟨200, [], some (JsonVal.jobj
          [("Breaches", JsonVal.jarr [JsonVal.jobj [("Name", JsonVal.jnum 5)]])])⟩]
      = ([(PyKey.pnum 5, 1)], .value (some (true, [JsonVal.jnum 5], 1)))
    ∧ getName (JsonVal.jobj [("Name", JsonVal.jnum 5)]) = none :=
  ⟨rfl, rfl, by simp, rfl, rfl⟩

/-- Claim C8 as amended: for a non-blocked, non-404 response, the conditions
the interpreter actually raises on are unhandled inside the check — a
network failure, a non-JSON body, a body that is not an object or lacks the
Breaches key, a non-iterable Breaches value, and an iterated entry without a
Name field (including every non-object entry) all produce the fatal outcome,
and one fatal check makes execute produce no summary at all — but a Breaches
value that is an empty non-array iterable is not an error: the check
terminates successfully with zero recorded names. -/
theorem malformed_fatal_amended (c : PyCache) (r : Response)
    (streams : List (List (Option Response))) (rs : List (Option Response))
    (hb : ¬ isBlockedResp r) (h404 : r.status ≠ 404)
    (hmem : rs ∈ streams)
    (hf : (check_breaches_py breach_cache_py rs).2 = .fatal) :
    check_step_py c none = (c, .fatal)
    ∧ (r.json = none → check_step_py c (some r) = (c, .fatal))
    ∧ (∀ j, r.json = some j → pyLookupBreaches j = none →
        (check_step_py c (some r)).2 = .fatal)
    ∧ (∀ j v, r.json = some j → pyLookupBreaches j = some v → pyElems v = none →
        (check_step_py c (some r)).2 = .fatal)
    ∧ (∀ j v entries, r.json = some j → pyLookupBreaches j = some v →
        pyElems v = some entries → (∃ db ∈ entries, pyName db = none) →
        (check_step_py c (some r)).2 = .fatal)
    ∧ (∀ j v, r.json = some j → pyLookupBreaches j = some v → pyElems v = some [] →
        check_step_py c (some r) = (c, .success []))
    ∧ execute_py streams = none := by
  refine ⟨rfl, ?_, ?_, ?_, ?_, ?_, execute_py_fatal streams rs hmem hf⟩
  · intro hj
    simp only [check_step_py]
    rw [if_neg hb, if_neg h404]
    simp only [classifyBodyPy]
    rw [hj]
  · intro j hj hbr
    simp only [check_step_py]
    rw [if_neg hb, if_neg h404]
    simp only [classifyBodyPy]
    rw [hj]
    dsimp only
    rw [hbr]
  · intro j v hj hbr he
    simp only [check_step_py]
    rw [if_neg hb, if_neg h404]
    simp only [classifyBodyPy]
    rw [hj]
    dsimp only
    rw [hbr]
    dsimp only
    rw [he]
  · intro j v entries hj hbr he hex
    simp only [check_step_py]
    rw [if_neg hb, if_neg h404]
    simp only [classifyBodyPy]
    rw [hj]
    dsimp only
    rw [hbr]
    dsimp only
    rw [he]
    dsimp only
    have hnone := recordEntries_missing_name entries c hex
    rcases hrr : recordEntries c entries with ⟨c2, o⟩
    rw [hrr] at hnone
    simp at hnone
    subst hnone
    rfl
  · intro j v hj hbr he
    simp only [check_step_py]
    rw [if_neg hb, if_neg h404]
    simp only [classifyBodyPy]
    rw [hj]
    dsimp only
    rw [hbr]
    dsimp only
    rw [he]
    rfl

theorem malformed_fatal_amended_witness :
    check_step_py [] none = ([], .fatal)
    ∧ ((⟨200, [], none⟩ : Response).json = none →
        check_step_py [] (some ⟨200, [], none⟩) = ([], .fatal))
    ∧ (∀ j, (⟨200, [], none⟩ : Response).json = some j → pyLookupBreaches j = none →
        (check_step_py [] (some ⟨200, [], none⟩)).2 = .fatal)
    ∧ (∀ j v, (⟨200, [], none⟩ : Response).json = some j →
        pyLookupBreaches j = some v → pyElems v = none →
        (check_step_py [] (some ⟨200, [], none⟩)).2 = .fatal)
    ∧ (∀ j v entries, (⟨200, [], none⟩ : Response).json = some j →
        pyLookupBreaches j = some v → pyElems v = some entries →
        (∃ db ∈ entries, pyName db = none) →
        (check_step_py [] (some ⟨200, [], none⟩)).2 = .fatal)
    ∧ (∀ j v, (⟨200, [], none⟩ : Response).json = some j →
        pyLookupBreaches j = some v → pyElems v = some [] →
        check_step_py [] (some ⟨200, [], none⟩) = ([], .success []))
    ∧ execute_py [[none]] = none :=
  malformed_fatal_amended [] ⟨200, [], none⟩ [[none]] [none]
    (by decide) (by decide) (List.Mem.head _) rfl

/-- Claim C9: for every address matching the input extraction pattern, the
at-sign-only replacement of line 55 produces exactly the percent-encoded
form of the address, so the URL issued is the base joined with the
percent-encoded address. -/
theorem percent_encoding_exact (s : List Char) (h : emailPattern s) :
    encode_at s = percentEncode s
    ∧ base_url s
        = "https://haveibeenpwned.com/unifiedsearch/".toList ++ percentEncode s := by
  have hchars : ∀ ch ∈ s, ch = '@' ∨ unreservedChar ch = true := by
    rcases h with ⟨lp, dom, tld, rfl, _, _, _, hlp, hdom, htld⟩
    intro ch hch
    have hloc : ∀ x : Char, localChar x = true → unreservedChar x = true := by
      intro x hx
      simp [localChar] at hx
      simp [unreservedChar]
      tauto
    have htl : ∀ x : Char, tldChar x = true → unreservedChar x = true := by
      intro x hx
      simp [tldChar] at hx
      simp [unreservedChar]
      tauto
    simp [List.mem_append, List.mem_cons] at hch
    rcases hch with hch | hch | hch | hch | hch
    · exact Or.inr (hloc ch (hlp ch hch))
    · exact Or.inl hch
    · exact Or.inr (hloc ch (hdom ch hch))
    · subst hch; exact Or.inr (by decide)
    · exact Or.inr (htl ch (htld ch hch))
  have he : encode_at s = percentEncode s := by
    clear h
    induction s with
    | nil => rfl
    | cons ch cs ih =>
      have hcs := ih (fun x hx => hchars x (by simp [hx]))
      rcases hchars ch (by simp) with rfl | hu
      · rw [show encode_at ('@' :: cs) = '%' :: '4' :: '0' :: encode_at cs by
              simp [encode_at]]
        rw [show percentEncode ('@' :: cs) = percentEncodeChar '@' ++ percentEncode cs
              from rfl]
        rw [show percentEncodeChar '@' = ['%', '4', '0'] by decide]
        rw [hcs]
        rfl
      · have hne : ch ≠ '@' := by
          intro hh
          subst hh
          exact absurd hu (by decide)
        rw [show percentEncode (ch :: cs) = percentEncodeChar ch ++ percentEncode cs
              from rfl]
        simp [encode_at, percentEncodeChar, hne, hu, hcs]
  exact ⟨he, by rw [base_url, he]⟩

theorem percent_encoding_exact_witness :
    encode_at "a@x.com".toList = percentEncode "a@x.com".toList
    ∧ base_url "a@x.com".toList
        = "https://haveibeenpwned.com/unifiedsearch/".toList
            ++ percentEncode "a@x.com".toList :=
  percent_encoding_exact "a@x.com".toList
    ⟨['a'], ['x'], ['c', 'o', 'm'],
     by decide, by decide, by decide, by decide, by decide, by decide, by decide⟩

/-- Claim C10: the blocked test runs before the 404 test, so a 404 response
whose body contains the bot-block marker is classified blocked and retried
(the check continues on the rest of the stream) instead of terminating as
not found. -/
theorem blocked_overrides_notFound (c : Cache) (body : List Char)
    (j : Option JsonVal) (rest : List (Option Response))
    (hm : containsList marker body = true) :
    check_step c (some ⟨404, body, j⟩) = (c, .blocked)
    ∧ check_breaches c (some ⟨404, body, j⟩ :: rest) = check_breaches c rest := by
  have hb : isBlockedResp (⟨404, body, j⟩ : Response) := Or.inl hm
  exact ⟨check_step_blocked c _ hb, check_breaches_blocked_cons c _ rest hb⟩

theorem blocked_overrides_notFound_witness :
    check_step [] (some ⟨404, marker, none⟩) = ([], .blocked)
    ∧ check_breaches [] (some ⟨404, marker, none⟩ :: [])
        = check_breaches [] [] :=
  blocked_overrides_notFound [] marker none [] (by decide)

end HIBP
